import Mathlib

/-!
Verification development for the `gts` package (`go-timesort`): a generic
slice wrapper `TimeSlice[T]` that sorts its elements by a timestamp
extracted from each element through a caller-supplied function.

The source file contains two implementations of the same API:
* the decorate-sort-undecorate implementation (`SortAsc`/`SortDesc` build a
  parallel key buffer and stably sort a slice of indices, then rebuild and
  publish the slice), and
* a direct implementation (`SortAscV2`/`SortDescV2` here) that calls
  `sort.SliceStable` on the slice itself with a comparator invoking the
  extractor.

Modelling conventions:
* `time.Time` is modelled as `Int` (`Time`), with `t1.Before(t2)` as
  `timeBefore` (strict `<`) and `t1.After(t2)` as `timeAfter` (strict `>`).
* Go slices are modelled as `List`; indexing `s[i]` is `List.getD i default`
  (all indexing in the claims is at in-range positions).
* `sort.SliceStable less` is modelled as `goSliceStable`, a stable sort with
  respect to the strict comparator `less`: stable insertion sort for the
  complementary non-strict relation `fun a b => less b a = false`.  For the
  comparators used here (`Before`/`After` on extracted keys, a strict weak
  order) every stable sort produces the same output, so this models Go's
  stable sort exactly.
* The mutex is dropped in the sequential functional model, except for the
  lock-discipline claim, which is settled over per-operation event traces
  (`LockEvent`) transcribed from the statement order of each function body.
* A Go `panic` in the constructor or a fallible extractor is modelled with
  `Except`.
-/

set_option maxHeartbeats 1000000

namespace Gts

/-- Timestamps: `time.Time` restricted to its total order, modelled as `Int`. -/
abbrev Time := Int

/-- Model of `t1.Before(t2)`: strictly earlier. -/
def timeBefore (t1 t2 : Time) : Bool := decide (t1 < t2)

/-- Model of `t1.After(t2)`: strictly later. -/
def timeAfter (t1 t2 : Time) : Bool := decide (t2 < t1)

/-- Model of the `TimeSlice[T]` struct (gts.go lines 11-15) for the only
usable case, a non-nil extractor; the mutex field is dropped from the
sequential model. -/
structure TimeSlice (T : Type) where
  fieldTimeExtractor : T → Time
  slice : List T

/-- Model of the `TimeSlice[T]` struct keeping the possibility that the
stored Go function value `fieldTimeExtractor` is `nil` (`none`), as the
constructors must distinguish that case. -/
structure TimeSliceRaw (T : Type) where
  fieldTimeExtractor : Option (T → Time)
  slice : List T

/-- Model of `sort.SliceStable(l, less)`: the stable sort of `l` with
respect to the strict comparator `less`, realised as insertion sort for the
complementary non-strict relation. -/
def goSliceStable {α : Type _} (less : α → α → Bool) (l : List α) : List α :=
  List.insertionSort (fun a b => less b a = false) l

variable {T : Type}

/-- Model of `New` (first implementation, lines 18-26): panics (error) when
the extractor is nil, otherwise stores the given values and extractor. -/
def New (values : List T) (fieldTimeExtractor : Option (T → Time)) :
    Except String (TimeSliceRaw T) :=
  match fieldTimeExtractor with
  | none => Except.error "gts: fieldTimeExtractor cannot be nil"
  | some f => Except.ok { fieldTimeExtractor := some f, slice := values }

/-- Model of `New` (second implementation, lines 232-237): stores the given
values and extractor with no nil check. -/
def NewV2 (values : List T) (fieldTimeExtractor : Option (T → Time)) :
    TimeSliceRaw T :=
  { fieldTimeExtractor := fieldTimeExtractor, slice := values }

/-- Model of `Len` (lines 30-34): length of the underlying slice. -/
def Len (ts : TimeSlice T) : Nat := ts.slice.length

/-- Model of `LessAsc` (lines 38-46): true iff the time extracted from
`slice[i]` is before the time extracted from `slice[j]`. -/
def LessAsc [Inhabited T] (ts : TimeSlice T) (i j : Nat) : Bool :=
  timeBefore (ts.fieldTimeExtractor (ts.slice.getD i default))
    (ts.fieldTimeExtractor (ts.slice.getD j default))

/-- Model of `LessDesc` (lines 50-58): true iff the time extracted from
`slice[i]` is after the time extracted from `slice[j]`. -/
def LessDesc [Inhabited T] (ts : TimeSlice T) (i j : Nat) : Bool :=
  timeAfter (ts.fieldTimeExtractor (ts.slice.getD i default))
    (ts.fieldTimeExtractor (ts.slice.getD j default))

/-- Model of `Swap` (lines 62-66): the simultaneous assignment
`slice[i], slice[j] = slice[j], slice[i]`. -/
def Swap [Inhabited T] (ts : TimeSlice T) (i j : Nat) : TimeSlice T :=
  { ts with
    slice := (ts.slice.set i (ts.slice.getD j default)).set j
      (ts.slice.getD i default) }

/-- Model of `SortAsc` (first implementation, lines 79-135): snapshot the
slice, return early when it is empty, extract every key once into `times`,
stably sort the index slice `[0, ..., n-1]` by `times[i].Before(times[j])`,
rebuild `newSlice[i] = orig[idxs[i]]` and publish it.  The `sync.Pool`
buffer reuse has no observable effect and is dropped. -/
def SortAsc [Inhabited T] (ts : TimeSlice T) : TimeSlice T :=
  let orig := ts.slice
  let n := orig.length
  if n = 0 then ts
  else
    let times : List Time := orig.map ts.fieldTimeExtractor
    let idxs : List Nat := List.range n
    let sorted := goSliceStable
      (fun i j => timeBefore (times.getD i 0) (times.getD j 0)) idxs
    { ts with slice := sorted.map fun i => orig.getD i default }

/-- Model of `SortDesc` (first implementation, lines 139-195): as `SortAsc`
with the index comparator `times[i].After(times[j])`. -/
def SortDesc [Inhabited T] (ts : TimeSlice T) : TimeSlice T :=
  let orig := ts.slice
  let n := orig.length
  if n = 0 then ts
  else
    let times : List Time := orig.map ts.fieldTimeExtractor
    let idxs : List Nat := List.range n
    let sorted := goSliceStable
      (fun i j => timeAfter (times.getD i 0) (times.getD j 0)) idxs
    { ts with slice := sorted.map fun i => orig.getD i default }

/-- Model of `Items` (lines 198-204): a copy of the underlying slice. -/
def Items (ts : TimeSlice T) : List T := ts.slice

/-- Model of `Clone` (lines 208-214): a new `TimeSlice` with a copy of the
slice and the same extractor. -/
def Clone (ts : TimeSlice T) : TimeSlice T :=
  { fieldTimeExtractor := ts.fieldTimeExtractor, slice := ts.slice }

/-- Model of `SortAsc` (second implementation, lines 276-282):
`sort.SliceStable` on the slice itself, comparing by
`extract(slice[i]).Before(extract(slice[j]))`. -/
def SortAscV2 (ts : TimeSlice T) : TimeSlice T :=
  { ts with
    slice := goSliceStable
      (fun a b => timeBefore (ts.fieldTimeExtractor a) (ts.fieldTimeExtractor b))
      ts.slice }

/-- Model of `SortDesc` (second implementation, lines 285-291):
`sort.SliceStable` on the slice itself, comparing by
`extract(slice[i]).After(extract(slice[j]))`. -/
def SortDescV2 (ts : TimeSlice T) : TimeSlice T :=
  { ts with
    slice := goSliceStable
      (fun a b => timeAfter (ts.fieldTimeExtractor a) (ts.fieldTimeExtractor b))
      ts.slice }

/-! ### Key-relation plumbing

`goSliceStable less` is insertion sort for `fun a b => less b a = false`.
For the ascending comparator this relation says `f a ≤ f b`, for the
descending one `f b ≤ f a`. -/

/-- The non-strict relation insertion-sorted by the ascending comparator. -/
def ascRel {α : Type _} (f : α → Time) : α → α → Prop :=
  fun a b => timeBefore (f b) (f a) = false

/-- The non-strict relation insertion-sorted by the descending comparator. -/
def descRel {α : Type _} (f : α → Time) : α → α → Prop :=
  fun a b => timeAfter (f b) (f a) = false

theorem timeBefore_eq_false_iff {t1 t2 : Time} :
    timeBefore t1 t2 = false ↔ t2 ≤ t1 := by
  simp [timeBefore]

theorem timeAfter_eq_false_iff {t1 t2 : Time} :
    timeAfter t1 t2 = false ↔ t1 ≤ t2 := by
  simp [timeAfter]

theorem ascRel_iff {α : Type _} (f : α → Time) (a b : α) :
    ascRel f a b ↔ f a ≤ f b := by
  simp [ascRel, timeBefore_eq_false_iff]

theorem descRel_iff {α : Type _} (f : α → Time) (a b : α) :
    descRel f a b ↔ f b ≤ f a := by
  simp [descRel, timeAfter_eq_false_iff]

instance {α : Type _} (f : α → Time) : DecidableRel (ascRel f) :=
  fun a b => instDecidableEqBool (timeBefore (f b) (f a)) false

instance {α : Type _} (f : α → Time) : DecidableRel (descRel f) :=
  fun a b => instDecidableEqBool (timeAfter (f b) (f a)) false

instance {α : Type _} (f : α → Time) : IsTotal α (ascRel f) :=
  ⟨fun a b => by
    rw [ascRel_iff, ascRel_iff]
    exact le_total (f a) (f b)⟩

instance {α : Type _} (f : α → Time) : IsTrans α (ascRel f) :=
  ⟨fun a b c hab hbc => by
    rw [ascRel_iff] at hab hbc ⊢
    exact le_trans hab hbc⟩

instance {α : Type _} (f : α → Time) : IsTotal α (descRel f) :=
  ⟨fun a b => by
    rw [descRel_iff, descRel_iff]
    exact le_total (f b) (f a)⟩

instance {α : Type _} (f : α → Time) : IsTrans α (descRel f) :=
  ⟨fun a b c hab hbc => by
    rw [descRel_iff] at hab hbc ⊢
    exact le_trans hbc hab⟩

theorem goSliceStable_before_eq {α : Type _} (f : α → Time) (l : List α) :
    goSliceStable (fun a b => timeBefore (f a) (f b)) l
      = List.insertionSort (ascRel f) l := rfl

theorem goSliceStable_after_eq {α : Type _} (f : α → Time) (l : List α) :
    goSliceStable (fun a b => timeAfter (f a) (f b)) l
      = List.insertionSort (descRel f) l := rfl

/-! ### Equivalence of the decorate-sort-undecorate path and the direct path -/

theorem map_getD_range {α : Type _} (l : List α) (d : α) :
    (List.range l.length).map (fun i => l.getD i d) = l := by
  apply List.ext_getElem
  · simp
  · intro i h1 h2
    simp only [List.getElem_map, List.getElem_range]
    exact List.getD_eq_getElem l d h2

theorem getD_map_of_lt [Inhabited T] (f : T → Time) (l : List T) {i : Nat}
    (h : i < l.length) :
    (l.map f).getD i 0 = f (l.getD i default) := by
  rw [List.getD_eq_getElem _ _ (by simpa using h), List.getD_eq_getElem _ _ h,
    List.getElem_map]

theorem decorate_eq_direct_asc [Inhabited T] (f : T → Time) (orig : List T) :
    (goSliceStable (fun i j =>
        timeBefore ((orig.map f).getD i 0) ((orig.map f).getD j 0))
      (List.range orig.length)).map (fun i => orig.getD i default)
    = goSliceStable (fun a b => timeBefore (f a) (f b)) orig := by
  rw [goSliceStable_before_eq (fun i => (orig.map f).getD i 0),
    goSliceStable_before_eq f]
  have hl : ∀ a ∈ List.range orig.length, ∀ b ∈ List.range orig.length,
      ascRel (fun i => (orig.map f).getD i 0) a b ↔
        ascRel f (orig.getD a default) (orig.getD b default) := by
    intro a ha b hb
    rw [List.mem_range] at ha hb
    rw [ascRel_iff, ascRel_iff, getD_map_of_lt f orig ha, getD_map_of_lt f orig hb]
  have h := List.map_insertionSort (ascRel (fun i => (orig.map f).getD i 0))
    (ascRel f) (fun i => orig.getD i default) (List.range orig.length) hl
  rw [h, map_getD_range]

theorem decorate_eq_direct_desc [Inhabited T] (f : T → Time) (orig : List T) :
    (goSliceStable (fun i j =>
        timeAfter ((orig.map f).getD i 0) ((orig.map f).getD j 0))
      (List.range orig.length)).map (fun i => orig.getD i default)
    = goSliceStable (fun a b => timeAfter (f a) (f b)) orig := by
  rw [goSliceStable_after_eq (fun i => (orig.map f).getD i 0),
    goSliceStable_after_eq f]
  have hl : ∀ a ∈ List.range orig.length, ∀ b ∈ List.range orig.length,
      descRel (fun i => (orig.map f).getD i 0) a b ↔
        descRel f (orig.getD a default) (orig.getD b default) := by
    intro a ha b hb
    rw [List.mem_range] at ha hb
    rw [descRel_iff, descRel_iff, getD_map_of_lt f orig ha, getD_map_of_lt f orig hb]
  have h := List.map_insertionSort (descRel (fun i => (orig.map f).getD i 0))
    (descRel f) (fun i => orig.getD i default) (List.range orig.length) hl
  rw [h, map_getD_range]

theorem sortAsc_eq_direct [Inhabited T] (ts : TimeSlice T) :
    SortAsc ts = SortAscV2 ts := by
  obtain ⟨f, l⟩ := ts
  by_cases h : l.length = 0
  · rw [List.length_eq_zero] at h
    subst h
    simp [SortAsc, SortAscV2, goSliceStable]
  · simp only [SortAsc, SortAscV2, if_neg h]
    exact congrArg (TimeSlice.mk f) (decorate_eq_direct_asc f l)

theorem sortDesc_eq_direct [Inhabited T] (ts : TimeSlice T) :
    SortDesc ts = SortDescV2 ts := by
  obtain ⟨f, l⟩ := ts
  by_cases h : l.length = 0
  · rw [List.length_eq_zero] at h
    subst h
    simp [SortDesc, SortDescV2, goSliceStable]
  · simp only [SortDesc, SortDescV2, if_neg h]
    exact congrArg (TimeSlice.mk f) (decorate_eq_direct_desc f l)

/-! ### Shape of the sorted slices -/

theorem sortAsc_slice_eq [Inhabited T] (ts : TimeSlice T) :
    (SortAsc ts).slice
      = List.insertionSort (ascRel ts.fieldTimeExtractor) ts.slice := by
  rw [sortAsc_eq_direct]
  exact goSliceStable_before_eq ts.fieldTimeExtractor ts.slice

theorem sortDesc_slice_eq [Inhabited T] (ts : TimeSlice T) :
    (SortDesc ts).slice
      = List.insertionSort (descRel ts.fieldTimeExtractor) ts.slice := by
  rw [sortDesc_eq_direct]
  exact goSliceStable_after_eq ts.fieldTimeExtractor ts.slice

theorem sortAsc_slice_perm [Inhabited T] (ts : TimeSlice T) :
    (SortAsc ts).slice.Perm ts.slice := by
  rw [sortAsc_slice_eq]
  exact List.perm_insertionSort _ _

theorem sortDesc_slice_perm [Inhabited T] (ts : TimeSlice T) :
    (SortDesc ts).slice.Perm ts.slice := by
  rw [sortDesc_slice_eq]
  exact List.perm_insertionSort _ _

theorem sortAsc_sorted [Inhabited T] (ts : TimeSlice T) :
    ((SortAsc ts).slice).Sorted (ascRel ts.fieldTimeExtractor) := by
  rw [sortAsc_slice_eq]
  exact List.sorted_insertionSort _ _

theorem sortDesc_sorted [Inhabited T] (ts : TimeSlice T) :
    ((SortDesc ts).slice).Sorted (descRel ts.fieldTimeExtractor) := by
  rw [sortDesc_slice_eq]
  exact List.sorted_insertionSort _ _

/-- C1: after `SortAsc`, adjacent result elements have their extracted
timestamp in non-decreasing order (`result[i]` is not after `result[i+1]`);
after `SortDesc`, in non-increasing order (not before). -/
theorem sort_adjacent_ordered [Inhabited T] (ts : TimeSlice T) (i : Nat)
    (h : i + 1 < Len ts) :
    timeAfter (ts.fieldTimeExtractor ((SortAsc ts).slice.getD i default))
        (ts.fieldTimeExtractor ((SortAsc ts).slice.getD (i + 1) default)) = false
      ∧ timeBefore (ts.fieldTimeExtractor ((SortDesc ts).slice.getD i default))
        (ts.fieldTimeExtractor ((SortDesc ts).slice.getD (i + 1) default))
          = false := by
  constructor
  · have hlen : (SortAsc ts).slice.length = Len ts :=
      (sortAsc_slice_perm ts).length_eq
    have h1 : i + 1 < (SortAsc ts).slice.length := by rw [hlen]; exact h
    have h0 : i < (SortAsc ts).slice.length := Nat.lt_of_succ_lt h1
    have key := List.Sorted.rel_get_of_lt (sortAsc_sorted ts)
      (a := ⟨i, h0⟩) (b := ⟨i + 1, h1⟩) (by simp)
    rw [ascRel_iff] at key
    rw [timeAfter_eq_false_iff, List.getD_eq_getElem _ _ h0,
      List.getD_eq_getElem _ _ h1]
    simpa using key
  · have hlen : (SortDesc ts).slice.length = Len ts :=
      (sortDesc_slice_perm ts).length_eq
    have h1 : i + 1 < (SortDesc ts).slice.length := by rw [hlen]; exact h
    have h0 : i < (SortDesc ts).slice.length := Nat.lt_of_succ_lt h1
    have key := List.Sorted.rel_get_of_lt (sortDesc_sorted ts)
      (a := ⟨i, h0⟩) (b := ⟨i + 1, h1⟩) (by simp)
    rw [descRel_iff] at key
    rw [timeBefore_eq_false_iff, List.getD_eq_getElem _ _ h0,
      List.getD_eq_getElem _ _ h1]
    simpa using key

theorem sort_adjacent_ordered_witness :
    0 + 1 < Len (⟨fun t => t, [2, 1, 3]⟩ : TimeSlice Time)
      ∧ (timeAfter
          ((fun t => t)
            ((SortAsc (⟨fun t => t, [2, 1, 3]⟩ : TimeSlice Time)).slice.getD 0
              default))
          ((fun t => t)
            ((SortAsc (⟨fun t => t, [2, 1, 3]⟩ : TimeSlice Time)).slice.getD
              (0 + 1) default)) = false
        ∧ timeBefore
          ((fun t => t)
            ((SortDesc (⟨fun t => t, [2, 1, 3]⟩ : TimeSlice Time)).slice.getD 0
              default))
          ((fun t => t)
            ((SortDesc (⟨fun t => t, [2, 1, 3]⟩ : TimeSlice Time)).slice.getD
              (0 + 1) default)) = false) :=
  ⟨by decide, sort_adjacent_ordered ⟨fun t => t, [2, 1, 3]⟩ 0 (by decide)⟩

/-! ### Stability -/

theorem filter_insertionSort {α : Type _} (r : α → α → Prop) [DecidableRel r]
    (p : α → Bool) (hp : ∀ a b, p a = true → p b = true → r a b) (l : List α) :
    (List.insertionSort r l).filter p = l.filter p := by
  have hpair : (l.filter p).Pairwise r := by
    apply List.pairwise_of_forall_mem_list
    intro a ha b hb
    exact hp a b (List.of_mem_filter ha) (List.of_mem_filter hb)
  have h1 : List.Sublist (l.filter p) (List.insertionSort r l) :=
    List.sublist_insertionSort hpair (List.filter_sublist l)
  have h2 : List.Sublist (l.filter p) ((List.insertionSort r l).filter p) := by
    simpa [List.filter_filter, Bool.and_self] using h1.filter p
  have h3 : ((List.insertionSort r l).filter p).length = (l.filter p).length :=
    ((List.perm_insertionSort r l).filter p).length_eq
  exact (h2.eq_of_length h3.symm).symm

/-- C2: stability. For every timestamp value `t`, the subsequence of
elements whose extracted timestamp equals `t` is the same, in the same
order, before and after `SortAsc` and `SortDesc`; hence tied elements keep
their relative order across repeated sorts and ascending/descending
toggles. -/
theorem sort_stable [Inhabited T] (ts : TimeSlice T) (t : Time) :
    ((SortAsc ts).slice.filter fun x => decide (ts.fieldTimeExtractor x = t))
        = (ts.slice.filter fun x => decide (ts.fieldTimeExtractor x = t))
      ∧ ((SortDesc ts).slice.filter fun x =>
            decide (ts.fieldTimeExtractor x = t))
        = (ts.slice.filter fun x => decide (ts.fieldTimeExtractor x = t)) := by
  constructor
  · rw [sortAsc_slice_eq]
    apply filter_insertionSort
    intro a b ha hb
    rw [decide_eq_true_eq] at ha hb
    rw [ascRel_iff, ha, hb]
  · rw [sortDesc_slice_eq]
    apply filter_insertionSort
    intro a b ha hb
    rw [decide_eq_true_eq] at ha hb
    rw [descRel_iff, ha, hb]

/-! ### Multiset preservation -/

theorem set_getD_perm {α : Type _} (d : α) :
    ∀ (xs : List α) (m : Nat), m < xs.length →
      ∀ x : α, ((xs.getD m d) :: xs.set m x).Perm (x :: xs) := by
  intro xs
  induction xs with
  | nil => intro m hm; exact absurd hm (by simp)
  | cons y ys ih =>
    intro m hm x
    cases m with
    | zero =>
      simp only [List.getD_cons_zero, List.set_cons_zero]
      exact List.Perm.swap x y ys
    | succ m =>
      simp only [List.getD_cons_succ, List.set_cons_succ]
      have h1 : ((ys.getD m d) :: y :: ys.set m x).Perm
          (y :: (ys.getD m d) :: ys.set m x) :=
        List.Perm.swap y (ys.getD m d) (ys.set m x)
      have h2 : (y :: (ys.getD m d) :: ys.set m x).Perm (y :: x :: ys) :=
        (ih m (by simpa using hm) x).cons y
      have h3 : (y :: x :: ys).Perm (x :: y :: ys) := List.Perm.swap x y ys
      exact (h1.trans h2).trans h3

theorem swap_list_perm {α : Type _} (d : α) :
    ∀ (l : List α) (i j : Nat), i < l.length → j < l.length →
      ((l.set i (l.getD j d)).set j (l.getD i d)).Perm l := by
  intro l
  induction l with
  | nil => intro i j hi; exact absurd hi (by simp)
  | cons y ys ih =>
    intro i j hi hj
    cases i with
    | zero =>
      cases j with
      | zero => simp
      | succ m =>
        simp only [List.getD_cons_zero, List.getD_cons_succ,
          List.set_cons_zero, List.set_cons_succ]
        exact set_getD_perm d ys m (by simpa using hj) y
    | succ n =>
      cases j with
      | zero =>
        simp only [List.getD_cons_zero, List.getD_cons_succ,
          List.set_cons_zero, List.set_cons_succ]
        exact set_getD_perm d ys n (by simpa using hi) y
      | succ m =>
        simp only [List.getD_cons_succ, List.set_cons_succ]
        exact (ih n m (by simpa using hi) (by simpa using hj)).cons y

/-- C3: every operation preserves the element multiset: `Len` is unchanged
by `SortAsc`, `SortDesc`, `Swap` and `Clone`, and the slices produced by the
sorts and by `Swap` are permutations of the input slice (nothing is added,
dropped or duplicated). -/
theorem operations_preserve_multiset [Inhabited T] (ts : TimeSlice T)
    (i j : Nat) (hi : i < Len ts) (hj : j < Len ts) :
    Len (SortAsc ts) = Len ts ∧ Len (SortDesc ts) = Len ts
      ∧ Len (Swap ts i j) = Len ts ∧ Len (Clone ts) = Len ts
      ∧ (SortAsc ts).slice.Perm ts.slice ∧ (SortDesc ts).slice.Perm ts.slice
      ∧ (Swap ts i j).slice.Perm ts.slice ∧ (Clone ts).slice = ts.slice := by
  refine ⟨(sortAsc_slice_perm ts).length_eq, (sortDesc_slice_perm ts).length_eq,
    ?_, rfl, sortAsc_slice_perm ts, sortDesc_slice_perm ts, ?_, rfl⟩
  · simp [Swap, Len]
  · exact swap_list_perm default ts.slice i j hi hj

theorem operations_preserve_multiset_witness :
    0 < Len (⟨fun t => t, [1, 2]⟩ : TimeSlice Time)
      ∧ 1 < Len (⟨fun t => t, [1, 2]⟩ : TimeSlice Time)
      ∧ Len (SortAsc (⟨fun t => t, [1, 2]⟩ : TimeSlice Time))
          = Len (⟨fun t => t, [1, 2]⟩ : TimeSlice Time) :=
  ⟨by decide, by decide,
    (operations_preserve_multiset ⟨fun t => t, [1, 2]⟩ 0 1
      (by decide) (by decide)).1⟩

/-- C4: the decorate-sort-undecorate implementation and the direct in-place
stable-sort implementation are observably equivalent: they produce the same
resulting `TimeSlice` for every input and extractor, ascending and
descending. -/
theorem sort_paths_equivalent [Inhabited T] (ts : TimeSlice T) :
    SortAsc ts = SortAscV2 ts ∧ SortDesc ts = SortDescV2 ts :=
  ⟨sortAsc_eq_direct ts, sortDesc_eq_direct ts⟩

/-! ### Toggle reversal on all-distinct timestamps -/

theorem sortAsc_extractor [Inhabited T] (ts : TimeSlice T) :
    (SortAsc ts).fieldTimeExtractor = ts.fieldTimeExtractor := by
  simp only [SortAsc]
  split <;> rfl

theorem sortDesc_extractor [Inhabited T] (ts : TimeSlice T) :
    (SortDesc ts).fieldTimeExtractor = ts.fieldTimeExtractor := by
  simp only [SortDesc]
  split <;> rfl

/-- C8: when all extracted timestamps are pairwise distinct, running
`SortDesc` on the result of `SortAsc` yields exactly the reverse of the
ascending result. -/
theorem sortDesc_reverses_sortAsc [Inhabited T] (ts : TimeSlice T)
    (hnd : (ts.slice.map ts.fieldTimeExtractor).Nodup) :
    (SortDesc (SortAsc ts)).slice = ((SortAsc ts).slice).reverse := by
  have e1 : (SortDesc (SortAsc ts)).slice
      = List.insertionSort (descRel ts.fieldTimeExtractor) (SortAsc ts).slice := by
    rw [sortDesc_slice_eq, sortAsc_extractor]
  set f := ts.fieldTimeExtractor with hf
  set A := (SortAsc ts).slice with hA
  haveI : IsAntisymm T (fun a b => f b < f a) :=
    ⟨fun a b h1 h2 => absurd (lt_trans h1 h2) (lt_irrefl _)⟩
  have hnodA : (A.map f).Nodup :=
    (((sortAsc_slice_perm ts).map f).nodup_iff).mpr hnd
  have hnodIS : ((List.insertionSort (descRel f) A).map f).Nodup :=
    (((List.perm_insertionSort (descRel f) A).map f).nodup_iff).mpr hnodA
  have hperm : (List.insertionSort (descRel f) A).Perm A.reverse :=
    (List.perm_insertionSort (descRel f) A).trans (List.reverse_perm A).symm
  have hs1 : (List.insertionSort (descRel f) A).Sorted (fun a b => f b < f a) := by
    have hsorted : (List.insertionSort (descRel f) A).Sorted (descRel f) :=
      List.sorted_insertionSort (descRel f) A
    have hne : (List.insertionSort (descRel f) A).Pairwise
        (fun a b => f a ≠ f b) := List.pairwise_map.mp hnodIS
    exact (hsorted.and hne).imp
      (fun h => lt_of_le_of_ne ((descRel_iff f _ _).mp h.1) (Ne.symm h.2))
  have hs2 : (A.reverse).Sorted (fun a b => f b < f a) := by
    have hsorted : A.Sorted (ascRel f) := sortAsc_sorted ts
    have hne : A.Pairwise (fun a b => f a ≠ f b) := List.pairwise_map.mp hnodA
    have hstrict : A.Pairwise (fun a b => f a < f b) :=
      (hsorted.and hne).imp
        (fun h => lt_of_le_of_ne ((ascRel_iff f _ _).mp h.1) h.2)
    exact List.pairwise_reverse.mpr hstrict
  rw [e1]
  exact List.eq_of_perm_of_sorted hperm hs1 hs2

theorem sortDesc_reverses_sortAsc_witness :
    (([2, 1, 3] : List Time).map (fun t => t)).Nodup
      ∧ (SortDesc (SortAsc (⟨fun t => t, [2, 1, 3]⟩ : TimeSlice Time))).slice
        = ((SortAsc (⟨fun t => t, [2, 1, 3]⟩ : TimeSlice Time)).slice).reverse :=
  ⟨by decide, sortDesc_reverses_sortAsc ⟨fun t => t, [2, 1, 3]⟩ (by decide)⟩

/-- C10: comparator duality. For valid indices, `LessDesc i j` coincides
with `LessAsc j i`, and on elements with equal extracted timestamps both
comparators return `false`. -/
theorem lessDesc_eq_lessAsc_swapped [Inhabited T] (ts : TimeSlice T)
    (i j : Nat) (hi : i < Len ts) (hj : j < Len ts) :
    LessDesc ts i j = LessAsc ts j i
      ∧ (ts.fieldTimeExtractor (ts.slice.getD i default)
            = ts.fieldTimeExtractor (ts.slice.getD j default) →
          LessAsc ts i j = false ∧ LessDesc ts i j = false) := by
  refine ⟨rfl, fun heq => ?_⟩
  unfold LessAsc LessDesc timeBefore timeAfter
  rw [heq]
  simp

theorem lessDesc_eq_lessAsc_swapped_witness :
    0 < Len (⟨fun t => t, [3, 5]⟩ : TimeSlice Time)
      ∧ 1 < Len (⟨fun t => t, [3, 5]⟩ : TimeSlice Time)
      ∧ LessDesc (⟨fun t => t, [3, 5]⟩ : TimeSlice Time) 0 1
        = LessAsc (⟨fun t => t, [3, 5]⟩ : TimeSlice Time) 1 0 :=
  ⟨by decide, by decide,
    (lessDesc_eq_lessAsc_swapped ⟨fun t => t, [3, 5]⟩ 0 1
      (by decide) (by decide)).1⟩

/-! ### Construction -/

/-- C6 counterexample: the second implementation's constructor does not
fail fast on a nil extractor: it returns a collection that stores `none`. -/
theorem newV2_accepts_nil :
    NewV2 ([] : List Time) none
      = { fieldTimeExtractor := none, slice := ([] : List Time) } := rfl

/-- C6 (amended): the first implementation's `New` fails fast (panics) on a
nil extractor and otherwise stores the given sequence and extractor; the
second implementation's `New` performs no nil check and stores whatever
extractor value it is given together with the sequence. -/
theorem new_nil_check (values : List T) (f : T → Time)
    (g : Option (T → Time)) :
    New values none
        = (Except.error "gts: fieldTimeExtractor cannot be nil" :
            Except String (TimeSliceRaw T))
      ∧ New values (some f) = Except.ok ⟨some f, values⟩
      ∧ NewV2 values g = ⟨g, values⟩ :=
  ⟨rfl, rfl, rfl⟩

/-! ### Extractor call counts -/

/-- Model of the key-filling loop `times[i] = fieldTimeExtractor(orig[i])`
(lines 103-105 and 163-165), paired with the number of extractor
invocations it performs. -/
def fillTimes (f : T → Time) : List T → List Time × Nat
  | [] => ([], 0)
  | x :: xs =>
    let r := fillTimes f xs
    (f x :: r.1, r.2 + 1)

theorem fillTimes_fst (f : T → Time) :
    ∀ l : List T, (fillTimes f l).1 = l.map f := by
  intro l
  induction l with
  | nil => rfl
  | cons x xs ih => simp [fillTimes, ih]

theorem fillTimes_snd (f : T → Time) :
    ∀ l : List T, (fillTimes f l).2 = l.length := by
  intro l
  induction l with
  | nil => rfl
  | cons x xs ih => simp [fillTimes, ih]

/-- Model of `SortAsc` (first implementation) instrumented with the number
of extractor invocations the call performs. -/
def SortAscCount [Inhabited T] (ts : TimeSlice T) : TimeSlice T × Nat :=
  let orig := ts.slice
  let n := orig.length
  if n = 0 then (ts, 0)
  else
    let tc := fillTimes ts.fieldTimeExtractor orig
    let idxs : List Nat := List.range n
    let sorted := goSliceStable
      (fun i j => timeBefore (tc.1.getD i 0) (tc.1.getD j 0)) idxs
    ({ ts with slice := sorted.map fun i => orig.getD i default }, tc.2)

/-- Model of `SortDesc` (first implementation) instrumented with the number
of extractor invocations the call performs. -/
def SortDescCount [Inhabited T] (ts : TimeSlice T) : TimeSlice T × Nat :=
  let orig := ts.slice
  let n := orig.length
  if n = 0 then (ts, 0)
  else
    let tc := fillTimes ts.fieldTimeExtractor orig
    let idxs : List Nat := List.range n
    let sorted := goSliceStable
      (fun i j => timeAfter (tc.1.getD i 0) (tc.1.getD j 0)) idxs
    ({ ts with slice := sorted.map fun i => orig.getD i default }, tc.2)

/-- C7 counterexample: on a one-element slice the sort does not skip the
extraction step: the extractor is invoked once, not zero times. -/
theorem singleton_sort_calls_extractor :
    ([5] : List Time).length ≤ 1
      ∧ (SortAscCount (⟨fun t => t, [5]⟩ : TimeSlice Time)).2 ≠ 0 :=
  ⟨by decide, by decide⟩

/-- C7 (amended): one `SortAsc`/`SortDesc` call invokes the extractor
exactly once per element (`n` calls, regardless of comparison count) and
computes the same result as the uninstrumented sort; when the snapshot is
empty the call returns right after the snapshot with no extractor call and
the state unchanged; on a one-element slice the extractor is still invoked
once and the published slice equals the input slice. -/
theorem sort_extractor_call_counts [Inhabited T] (ts : TimeSlice T)
    (f : T → Time) (x : T) :
    (SortAscCount ts).2 = Len ts ∧ (SortDescCount ts).2 = Len ts
      ∧ (SortAscCount ts).1 = SortAsc ts ∧ (SortDescCount ts).1 = SortDesc ts
      ∧ SortAscCount ⟨f, []⟩ = (⟨f, []⟩, 0)
      ∧ SortDescCount ⟨f, []⟩ = (⟨f, []⟩, 0)
      ∧ (SortAscCount ⟨f, [x]⟩).1.slice = [x]
      ∧ (SortAscCount ⟨f, [x]⟩).2 = 1
      ∧ (SortDescCount ⟨f, [x]⟩).1.slice = [x]
      ∧ (SortDescCount ⟨f, [x]⟩).2 = 1 := by
  refine ⟨?_, ?_, ?_, ?_, rfl, rfl, rfl, rfl, rfl, rfl⟩
  · by_cases h : ts.slice.length = 0
    · simp [SortAscCount, h, Len]
    · simp [SortAscCount, h, Len, fillTimes_snd]
  · by_cases h : ts.slice.length = 0
    · simp [SortDescCount, h, Len]
    · simp [SortDescCount, h, Len, fillTimes_snd]
  · by_cases h : ts.slice.length = 0
    · simp [SortAscCount, SortAsc, h]
    · simp [SortAscCount, SortAsc, h, fillTimes_fst]
  · by_cases h : ts.slice.length = 0
    · simp [SortDescCount, SortDesc, h]
    · simp [SortDescCount, SortDesc, h, fillTimes_fst]

/-! ### Atomicity when the extractor fails -/

/-- Model of the `TimeSlice` struct when the caller-supplied extractor may
fail: a Go panic raised by the extractor is modelled as `Except.error`. -/
structure TimeSliceE (T : Type) where
  fieldTimeExtractor : T → Except String Time
  slice : List T

/-- Model of the key-filling loop when the extractor may panic: the loop
stops at the first failing element and the panic propagates. -/
def extractAll (f : T → Except String Time) :
    List T → Except String (List Time)
  | [] => Except.ok []
  | x :: xs =>
    match f x with
    | Except.error e => Except.error e
    | Except.ok t =>
      match extractAll f xs with
      | Except.error e => Except.error e
      | Except.ok rest => Except.ok (t :: rest)

theorem extractAll_error {f : T → Except String Time} :
    ∀ l : List T, (∃ x ∈ l, ∃ e, f x = Except.error e) →
      ∃ e, extractAll f l = Except.error e := by
  intro l
  induction l with
  | nil =>
    intro h
    obtain ⟨x, hx, _⟩ := h
    exact absurd hx (List.not_mem_nil x)
  | cons x xs ih =>
    intro h
    obtain ⟨y, hy, e, he⟩ := h
    cases hfx : f x with
    | error e2 => exact ⟨e2, by simp [extractAll, hfx]⟩
    | ok t =>
      rcases List.mem_cons.mp hy with h1 | h1
      · subst h1
        rw [hfx] at he
        exact absurd he (by simp)
      · obtain ⟨e2, hrec⟩ := ih ⟨y, h1, e, he⟩
        exact ⟨e2, by simp [extractAll, hfx, hrec]⟩

/-- Model of `SortAsc` (first implementation) with a fallible extractor:
the first component is the outcome the caller observes, the second the
stored state afterwards.  The stored slice is written only at the publish
step (lines 129-131), which panic unwinding skips, so on extraction failure
the state is the unchanged input state. -/
def SortAscE [Inhabited T] (ts : TimeSliceE T) :
    Except String Unit × TimeSliceE T :=
  let orig := ts.slice
  let n := orig.length
  if n = 0 then (Except.ok (), ts)
  else
    match extractAll ts.fieldTimeExtractor orig with
    | Except.error e => (Except.error e, ts)
    | Except.ok times =>
      let idxs : List Nat := List.range n
      let sorted := goSliceStable
        (fun i j => timeBefore (times.getD i 0) (times.getD j 0)) idxs
      (Except.ok (), { ts with slice := sorted.map fun i => orig.getD i default })

/-- Model of `SortDesc` (first implementation) with a fallible extractor. -/
def SortDescE [Inhabited T] (ts : TimeSliceE T) :
    Except String Unit × TimeSliceE T :=
  let orig := ts.slice
  let n := orig.length
  if n = 0 then (Except.ok (), ts)
  else
    match extractAll ts.fieldTimeExtractor orig with
    | Except.error e => (Except.error e, ts)
    | Except.ok times =>
      let idxs : List Nat := List.range n
      let sorted := goSliceStable
        (fun i j => timeAfter (times.getD i 0) (times.getD j 0)) idxs
      (Except.ok (), { ts with slice := sorted.map fun i => orig.getD i default })

/-- C5: if the extractor fails on some element of the slice, `SortAsc` and
`SortDesc` propagate the failure to the caller and leave the stored slice
unchanged: the slice is only replaced after a fully successful sort. -/
theorem sort_atomic_on_extractor_failure [Inhabited T] (ts : TimeSliceE T)
    (h : ∃ x ∈ ts.slice, ∃ e, ts.fieldTimeExtractor x = Except.error e) :
    ((∃ e, (SortAscE ts).1 = Except.error e) ∧ (SortAscE ts).2 = ts)
      ∧ (∃ e, (SortDescE ts).1 = Except.error e)
      ∧ (SortDescE ts).2 = ts := by
  obtain ⟨e, herr⟩ := extractAll_error ts.slice h
  have hn : ¬ ts.slice.length = 0 := by
    obtain ⟨x, hx, _⟩ := h
    simp [List.length_eq_zero, List.ne_nil_of_mem hx]
  have hA : SortAscE ts = (Except.error e, ts) := by
    simp [SortAscE, hn, herr]
  have hD : SortDescE ts = (Except.error e, ts) := by
    simp [SortDescE, hn, herr]
  exact ⟨⟨⟨e, by rw [hA]⟩, by rw [hA]⟩, ⟨e, by rw [hD]⟩, by rw [hD]⟩

theorem sort_atomic_on_extractor_failure_witness :
    (∃ x ∈ ([1, 0] : List Time), ∃ e,
        (if x = 0 then (Except.error "boom" : Except String Time)
          else Except.ok x) = Except.error e)
      ∧ (SortAscE (⟨fun t => if t = 0 then Except.error "boom"
            else Except.ok t, [1, 0]⟩ : TimeSliceE Time)).2
        = (⟨fun t => if t = 0 then Except.error "boom"
            else Except.ok t, [1, 0]⟩ : TimeSliceE Time) :=
  ⟨⟨0, by decide, "boom", rfl⟩,
    ((sort_atomic_on_extractor_failure
      (⟨fun t => if t = 0 then Except.error "boom"
        else Except.ok t, [1, 0]⟩ : TimeSliceE Time)
      ⟨0, by decide, "boom", rfl⟩).1).2⟩

/-! ### Lock discipline around extractor calls -/

/-- The events recorded from the operation bodies: lock acquisitions and
releases of the collection's `RWMutex`, and call sites of the
caller-supplied extractor. -/
inductive LockEvent where
  | rlock
  | runlock
  | wlock
  | wunlock
  | extractCall

/-- Checks that no extractor call occurs while any lock is held; `d` counts
the locks currently held. -/
def extractOutsideLock : List LockEvent → Nat → Bool
  | [], _ => true
  | LockEvent.rlock :: es, d => extractOutsideLock es (d + 1)
  | LockEvent.wlock :: es, d => extractOutsideLock es (d + 1)
  | LockEvent.runlock :: es, d => extractOutsideLock es (d - 1)
  | LockEvent.wunlock :: es, d => extractOutsideLock es (d - 1)
  | LockEvent.extractCall :: es, d => (d == 0) && extractOutsideLock es d

/-- Trace of `LessAsc` (first implementation, lines 38-46): RLock, read the
two elements, RUnlock, then the two extractor calls. -/
def lessAscEvents : List LockEvent :=
  [LockEvent.rlock, LockEvent.runlock, LockEvent.extractCall,
    LockEvent.extractCall]

/-- Trace of `LessDesc` (first implementation, lines 50-58). -/
def lessDescEvents : List LockEvent :=
  [LockEvent.rlock, LockEvent.runlock, LockEvent.extractCall,
    LockEvent.extractCall]

/-- Trace of the first implementation's `SortAsc` (lines 79-135) on a
snapshot of length `n`: snapshot under the read lock, early return when
empty, `n` extractor calls with no lock held, publish under the write
lock. -/
def sortAscEvents (n : Nat) : List LockEvent :=
  [LockEvent.rlock, LockEvent.runlock]
    ++ if n = 0 then []
      else List.replicate n LockEvent.extractCall
        ++ [LockEvent.wlock, LockEvent.wunlock]

/-- Trace of the first implementation's `SortDesc` (lines 139-195). -/
def sortDescEvents (n : Nat) : List LockEvent :=
  [LockEvent.rlock, LockEvent.runlock]
    ++ if n = 0 then []
      else List.replicate n LockEvent.extractCall
        ++ [LockEvent.wlock, LockEvent.wunlock]

/-- Trace of `LessAsc` in the second implementation (lines 249-255): both
extractor calls happen while the read lock is held. -/
def lessAscV2Events : List LockEvent :=
  [LockEvent.rlock, LockEvent.extractCall, LockEvent.extractCall,
    LockEvent.runlock]

/-- Trace of `LessDesc` in the second implementation (lines 259-265). -/
def lessDescV2Events : List LockEvent :=
  [LockEvent.rlock, LockEvent.extractCall, LockEvent.extractCall,
    LockEvent.runlock]

/-- Stable insertion for the non-strict complement relation, paired with
the number of comparator invocations it performs. -/
def orderedInsertSteps {α : Type _} (le : α → α → Bool) (a : α) :
    List α → List α × Nat
  | [] => ([a], 0)
  | b :: l =>
    if le a b then (a :: b :: l, 1)
    else
      let r := orderedInsertSteps le a l
      (b :: r.1, r.2 + 1)

/-- The modelled stable sort paired with its comparator invocation count. -/
def insertionSortSteps {α : Type _} (le : α → α → Bool) :
    List α → List α × Nat
  | [] => ([], 0)
  | b :: l =>
    let r := insertionSortSteps le l
    let i := orderedInsertSteps le b r.1
    (i.1, r.2 + i.2)

/-- Number of comparator invocations of the modelled `sort.SliceStable`. -/
def sliceStableCmps {α : Type _} (less : α → α → Bool) (l : List α) : Nat :=
  (insertionSortSteps (fun a b => !less b a) l).2

/-- Trace of the second implementation's `SortAsc` (lines 276-282): the
whole `sort.SliceStable` call runs under the write lock, so every
comparator invocation performs its two extractor calls with the write lock
held. -/
def sortAscV2Events (ts : TimeSlice T) : List LockEvent :=
  LockEvent.wlock ::
    (List.replicate
      (2 * sliceStableCmps
        (fun a b =>
          timeBefore (ts.fieldTimeExtractor a) (ts.fieldTimeExtractor b))
        ts.slice)
      LockEvent.extractCall ++ [LockEvent.wunlock])

/-- Trace of the second implementation's `SortDesc` (lines 285-291). -/
def sortDescV2Events (ts : TimeSlice T) : List LockEvent :=
  LockEvent.wlock ::
    (List.replicate
      (2 * sliceStableCmps
        (fun a b =>
          timeAfter (ts.fieldTimeExtractor a) (ts.fieldTimeExtractor b))
        ts.slice)
      LockEvent.extractCall ++ [LockEvent.wunlock])

theorem extractOutsideLock_replicate_zero :
    ∀ (k : Nat) (es : List LockEvent),
      extractOutsideLock (List.replicate k LockEvent.extractCall ++ es) 0
        = extractOutsideLock es 0 := by
  intro k
  induction k with
  | zero => intro es; rfl
  | succ k ih =>
    intro es
    simp only [List.replicate_succ, List.cons_append, extractOutsideLock]
    simpa using ih es

theorem orderedInsertSteps_singleton {α : Type _} (le : α → α → Bool)
    (a b : α) : (orderedInsertSteps le a [b]).2 = 1 := by
  by_cases h : le a b <;> simp [orderedInsertSteps, h]

theorem sliceStableCmps_pair {α : Type _} (less : α → α → Bool) (a b : α) :
    sliceStableCmps less [a, b] = 1 := by
  have h1 : orderedInsertSteps (fun a b => !less b a) b [] = ([b], 0) := rfl
  simp [sliceStableCmps, insertionSortSteps, h1, orderedInsertSteps_singleton]

/-- C9 counterexample: the second implementation's `SortAsc` on a
two-element slice invokes the extractor (twice) while the write lock is
held. -/
theorem sortAscV2_extracts_under_lock :
    extractOutsideLock
      (sortAscV2Events (⟨fun t => t, [1, 0]⟩ : TimeSlice Time)) 0
      = false := by decide

/-- C9 (amended): in the first implementation the extractor is never
invoked while a lock is held (`LessAsc`/`LessDesc` extract after releasing
the read lock; the sorts extract strictly between the snapshot read-unlock
and the publish write-lock).  In the second implementation,
`LessAsc`/`LessDesc` invoke the extractor under the read lock, and
`SortAsc`/`SortDesc` invoke it under the write lock whenever the stable
sort performs a comparison, e.g. on every two-element slice. -/
theorem extractor_lock_discipline (n : Nat) (f : T → Time) (x y : T) :
    extractOutsideLock lessAscEvents 0 = true
      ∧ extractOutsideLock lessDescEvents 0 = true
      ∧ extractOutsideLock (sortAscEvents n) 0 = true
      ∧ extractOutsideLock (sortDescEvents n) 0 = true
      ∧ extractOutsideLock lessAscV2Events 0 = false
      ∧ extractOutsideLock lessDescV2Events 0 = false
      ∧ extractOutsideLock (sortAscV2Events ⟨f, [x, y]⟩) 0 = false
      ∧ extractOutsideLock (sortDescV2Events ⟨f, [x, y]⟩) 0 = false := by
  have hsort : ∀ m : Nat,
      extractOutsideLock
        ([LockEvent.rlock, LockEvent.runlock]
          ++ if m = 0 then []
            else List.replicate m LockEvent.extractCall
              ++ [LockEvent.wlock, LockEvent.wunlock]) 0 = true := by
    intro m
    by_cases h : m = 0
    · subst h; rfl
    · rw [if_neg h]
      show extractOutsideLock
        (List.replicate m LockEvent.extractCall
          ++ [LockEvent.wlock, LockEvent.wunlock]) 0 = true
      rw [extractOutsideLock_replicate_zero]
      rfl
  have hv2 : ∀ (c : Nat), c = 1 →
      extractOutsideLock
        (LockEvent.wlock ::
          (List.replicate (2 * c) LockEvent.extractCall
            ++ [LockEvent.wunlock])) 0 = false := by
    intro c hc
    subst hc
    rfl
  refine ⟨rfl, rfl, hsort n, hsort n, rfl, rfl, ?_, ?_⟩
  · exact hv2 _ (sliceStableCmps_pair _ x y)
  · exact hv2 _ (sliceStableCmps_pair _ x y)

end Gts
